import Mathlib

/-!
Verification of the memorial installation's core logic against its
natural-language specification.  The definitions below are a shallow
embedding of the JavaScript source:

* `src/main.js` — the `AudioInput` feature extractor and the Hydra
  preset scheduler (`runPreset` / `startScheduler`).
* the p5 verse overlay — `wrapLines`, `nextVerse` and the per-frame
  `draw` tick (reveal / hold / fade / gap state machine).

JavaScript numbers are modelled as `ℚ`, byte buffers as `List ℕ`,
strings as Lean `String`.  Randomness (`Math.random`) is modelled by an
explicit index parameter into the palette.
-/

namespace Memorial

/-- `clamp01` from the overlay and from the hydra controller:
`Math.max(0, Math.min(1, x))`. -/
def clamp01 (x : ℚ) : ℚ := max 0 (min 1 x)

/-! ## Preset scheduler (`src/main.js`, createHydraController) -/

/-- The eight presets in the `presets` array, identified by the comments
in the source; their render chains are opaque to this development, only
their count and identity matter to the scheduler. -/
def presets : List String :=
  ["voronoiPlate", "repeatedShape", "noiseBase", "kaleidOsc",
   "oscThresh", "noiseLuma", "shapeRepeat", "engravedOsc"]

/-- `presets.length` in the source. -/
def presetCount : ℤ := presets.length

/-- The JavaScript `%` operator for a positive modulus: a truncating
remainder, negative when the dividend is negative. -/
def jsRem (a b : ℤ) : ℤ := if 0 ≤ a then a % b else -((-a) % b)

/-- The index normalisation performed by `runPreset(i)`:
`idx = (i + presets.length) % presets.length`. -/
def runPresetIdx (i : ℤ) : ℤ := jsRem (i + presetCount) presetCount

/-- Observable render events issued by one `runPreset` call. -/
inductive RenderEvent where
  | clear : RenderEvent
  | invoke : ℤ → RenderEvent
deriving DecidableEq, Repr

/-- The event trace of `runPreset(i)`: first the neutral clear
(`window.solid(0,0,0,1).out()`), then the invocation of the preset at
the normalised index (`presets[idx]()`). -/
def runPresetTrace (i : ℤ) : List RenderEvent :=
  [RenderEvent.clear, RenderEvent.invoke (runPresetIdx i)]

/-- One scheduled tick of the rotation timer: `runPreset(idx + 1)`. -/
def nextPresetIdx (idx : ℤ) : ℤ := runPresetIdx (idx + 1)

/-- The scheduler's index after `start` (which executes `runPreset(0)`)
followed by `k` scheduled advances, starting from an arbitrary
pre-`start` index `i0` (which `runPreset(0)` ignores). -/
def presetIdxAfter (_i0 : ℤ) (k : ℕ) : ℤ :=
  nextPresetIdx^[k] (runPresetIdx 0)

theorem jsRem_nonneg (a b : ℤ) (ha : 0 ≤ a) : jsRem a b = a % b := by
  simp [jsRem, ha]

theorem runPresetIdx_eq_emod (i : ℤ) (h : -8 ≤ i) :
    runPresetIdx i = i % 8 := by
  have h8 : presetCount = 8 := by decide
  unfold runPresetIdx
  rw [h8, jsRem_nonneg _ _ (by omega)]
  omega

theorem presetIdxAfter_succ (i0 : ℤ) (k : ℕ) :
    presetIdxAfter i0 (k + 1) = nextPresetIdx (presetIdxAfter i0 k) := by
  unfold presetIdxAfter
  rw [Function.iterate_succ_apply']

theorem presetIdxAfter_eq (i0 : ℤ) (k : ℕ) :
    presetIdxAfter i0 k = (k : ℤ) % 8 := by
  induction k with
  | zero =>
      unfold presetIdxAfter
      simp [runPresetIdx, presetCount, presets, jsRem]
  | succ k ih =>
      rw [presetIdxAfter_succ, ih]
      unfold nextPresetIdx
      rw [runPresetIdx_eq_emod _ (by omega)]
      omega

/-- C1: after a call to `start` (which runs preset 0) and `k` scheduled
advances, the active preset index is `k mod presetCount` with
`presetCount = 8`, regardless of the index `i0` held before `start`;
each advance moves to the cyclic successor, never skipping or
repeating. -/
theorem preset_rotation_cyclic (i0 : ℤ) (k : ℕ) :
    presetCount = 8 ∧
    presetIdxAfter i0 k = (k : ℤ) % 8 ∧
    presetIdxAfter i0 (k + 1) = (presetIdxAfter i0 k + 1) % 8 := by
  refine ⟨by decide, presetIdxAfter_eq i0 k, ?_⟩
  rw [presetIdxAfter_succ, presetIdxAfter_eq]
  unfold nextPresetIdx
  rw [runPresetIdx_eq_emod _ (by omega)]

/-- C6 counterexample: `runPreset(-9)` sets the index to `-1`, which is
not in `[0, presetCount)` and differs from the floored modulus
`(-9) mod 8 = 7`; the subsequent `presets[idx]` access is out of
bounds. -/
theorem runPresetIdx_neg_nine :
    runPresetIdx (-9) = -1 ∧ ¬ (0 ≤ runPresetIdx (-9)) ∧
    runPresetIdx (-9) ≠ (-9 : ℤ) % 8 := by
  decide

/-- C6 amended: for every integer `i ≥ -presetCount`, `run(i)`
normalises `i` to the floored modulus `i mod 8`, landing in
`[0, presetCount)`, and its trace performs the neutral clear before the
single preset invocation at that normalised index. -/
theorem runPreset_normalises (i : ℤ) (h : -8 ≤ i) :
    runPresetIdx i = i % 8 ∧
    0 ≤ runPresetIdx i ∧ runPresetIdx i < presetCount ∧
    runPresetTrace i =
      [RenderEvent.clear, RenderEvent.invoke (i % 8)] := by
  have he := runPresetIdx_eq_emod i h
  refine ⟨he, ?_, ?_, ?_⟩
  · rw [he]; exact Int.emod_nonneg _ (by norm_num)
  · rw [he]
    have : presetCount = 8 := by decide
    rw [this]
    exact Int.emod_lt_of_pos _ (by norm_num)
  · unfold runPresetTrace
    rw [he]

/-- Witness for C6's amended theorem at `i = -5`. -/
theorem runPreset_normalises_witness :
    runPresetIdx (-5) = (-5 : ℤ) % 8 ∧
    0 ≤ runPresetIdx (-5) ∧ runPresetIdx (-5) < presetCount ∧
    runPresetTrace (-5) =
      [RenderEvent.clear, RenderEvent.invoke ((-5 : ℤ) % 8)] :=
  runPreset_normalises (-5) (by decide)

/-! ### Scheduler state, tick failures (C5) and `startScheduler` (C7)

The browser event loop runs each `setInterval` callback in isolation:
an exception thrown inside one callback is reported by the host and
does not cancel the interval, so the next tick still fires.  Each tick
is `() => runPreset(idx + 1)`; inside `runPreset` the assignment
`idx = (i + presets.length) % presets.length` happens before the clear
pass and before the fallible `presets[idx]()` call, and `runPreset`
never touches `presetTimer`. -/

/-- Scheduler state: the module-level `idx`, the `presetTimer` handle
(`none` models `null`), the set of currently active interval timers of
the page, and a fresh-handle counter. -/
structure Sched where
  idx : ℤ
  presetTimer : Option ℕ
  activeTimers : List ℕ
  nextId : ℕ
deriving DecidableEq, Repr

/-- One scheduled tick `() => runPreset(idx + 1)`.  `invokeThrows`
says whether the selected preset chain throws this tick.  The index
assignment precedes the preset invocation, so it takes effect even on a
throwing tick; `runPreset` contains no timer operation, so the timer
state is untouched either way.  The returned flag reports whether the
tick ended in an uncaught exception (swallowed by the event loop). -/
def tickOnce (s : Sched) (invokeThrows : Bool) : Sched × Bool :=
  ({ s with idx := runPresetIdx (s.idx + 1) }, invokeThrows)

/-- A run of consecutive scheduled ticks with the given per-tick
failure behaviour; the event loop keeps the interval alive across
failing ticks. -/
def runTicks (s : Sched) (fails : List Bool) : Sched :=
  fails.foldl (fun st f => (tickOnce st f).1) s

theorem runTicks_idx (s : Sched) (fails : List Bool) :
    (runTicks s fails) =
      { s with idx := nextPresetIdx^[fails.length] s.idx } := by
  induction fails generalizing s with
  | nil => simp [runTicks]
  | cons f fs ih =>
      show runTicks (tickOnce s f).1 fs = _
      rw [ih]
      simp only [tickOnce, List.length_cons]
      congr 1

/-- C5: a preset invocation that throws during a scheduled tick does
not cancel the rotation timer and does not disturb the rotation: the
scheduler state after any failure pattern equals the state after the
same number of fully successful ticks (the timer handle, the active
timer set and the advanced index are identical), and from a normalised
index the presets keep advancing cyclically, one step per tick. -/
theorem tick_failure_isolated (s : Sched) (fails : List Bool)
    (hlo : 0 ≤ s.idx) (hhi : s.idx < 8) :
    runTicks s fails = runTicks s (List.replicate fails.length false) ∧
    (runTicks s fails).presetTimer = s.presetTimer ∧
    (runTicks s fails).activeTimers = s.activeTimers ∧
    (runTicks s fails).idx = (s.idx + fails.length) % 8 := by
  rw [runTicks_idx, runTicks_idx]
  refine ⟨by rw [List.length_replicate], rfl, rfl, ?_⟩
  show nextPresetIdx^[fails.length] s.idx = _
  induction fails.length with
  | zero =>
      simp only [Function.iterate_zero, id_eq, Nat.cast_zero, add_zero]
      omega
  | succ n ih =>
      rw [Function.iterate_succ_apply', ih]
      unfold nextPresetIdx
      have hm : (0:ℤ) ≤ (s.idx + n) % 8 :=
        Int.emod_nonneg _ (by norm_num)
      rw [runPresetIdx_eq_emod _ (by omega)]
      omega

/-- Witness for C5 at a concrete state with one failing tick among
three. -/
theorem tick_failure_isolated_witness :
    runTicks ⟨2, some 7, [7], 8⟩ [false, true, false] =
        runTicks ⟨2, some 7, [7], 8⟩ (List.replicate 3 false) ∧
      (runTicks ⟨2, some 7, [7], 8⟩ [false, true, false]).presetTimer =
        some 7 ∧
      (runTicks ⟨2, some 7, [7], 8⟩ [false, true, false]).activeTimers =
        [7] ∧
      (runTicks ⟨2, some 7, [7], 8⟩ [false, true, false]).idx =
        (2 + (3 : ℕ)) % 8 :=
  tick_failure_isolated ⟨2, some 7, [7], 8⟩ [false, true, false]
    (by decide) (by decide)

/-- `startScheduler(ms)` (src/main.js lines 451-455), split into its
three sequential statements: `runPreset(0)`;
`if (presetTimer) clearInterval(presetTimer)`;
`presetTimer = setInterval(..., ms)`. -/
def startSchedStep1 (s : Sched) : Sched :=
  { s with idx := runPresetIdx 0 }

def startSchedStep2 (s : Sched) : Sched :=
  match s.presetTimer with
  | some t => { s with activeTimers := s.activeTimers.erase t }
  | none => s

def startSchedStep3 (s : Sched) : Sched :=
  { s with presetTimer := some s.nextId,
           activeTimers := s.activeTimers ++ [s.nextId],
           nextId := s.nextId + 1 }

def startScheduler (s : Sched) : Sched :=
  startSchedStep3 (startSchedStep2 (startSchedStep1 s))

/-- The states observable while `startScheduler` executes: before the
call, after each statement. -/
def startSchedulerStates (s : Sched) : List Sched :=
  [s, startSchedStep1 s,
   startSchedStep2 (startSchedStep1 s),
   startScheduler s]

/-- Well-formedness of the scheduler's timer bookkeeping: the active
interval timers of the page are exactly the one registered rotation
timer (if any), and every live handle is older than the fresh-handle
counter. -/
def SchedInv (s : Sched) : Prop :=
  s.activeTimers = s.presetTimer.toList ∧
  ∀ t ∈ s.activeTimers, t < s.nextId

instance (s : Sched) : Decidable (SchedInv s) := by
  unfold SchedInv
  infer_instance

/-- C7: `start` is idempotent.  From any well-formed scheduler state,
`startScheduler` runs preset 0 (index becomes 0), cancels the previous
rotation timer (its handle is no longer active), installs exactly one
fresh timer, preserves well-formedness, and at no intermediate point of
the call are two rotation timers active simultaneously. -/
theorem startScheduler_idempotent (s : Sched) (h : SchedInv s) :
    (startScheduler s).idx = 0 ∧
    (startScheduler s).presetTimer = some s.nextId ∧
    (startScheduler s).activeTimers = [s.nextId] ∧
    (∀ t, s.presetTimer = some t → t ∉ (startScheduler s).activeTimers) ∧
    SchedInv (startScheduler s) ∧
    ∀ st ∈ startSchedulerStates s, st.activeTimers.length ≤ 1 := by
  obtain ⟨hact, hfresh⟩ := h
  have hidx : runPresetIdx 0 = 0 := by decide
  have h2 : (startSchedStep2 (startSchedStep1 s)).activeTimers = [] := by
    unfold startSchedStep2 startSchedStep1
    cases hp : s.presetTimer with
    | none => simp_all [Option.toList]
    | some t => simp_all [Option.toList, List.erase_cons]
  have h2keep : (startSchedStep2 (startSchedStep1 s)).nextId = s.nextId := by
    unfold startSchedStep2 startSchedStep1
    cases s.presetTimer <;> rfl
  have h2idx : (startSchedStep2 (startSchedStep1 s)).idx = 0 := by
    unfold startSchedStep2 startSchedStep1
    cases s.presetTimer <;> simp [hidx]
  refine ⟨?_, ?_, ?_, ?_, ?_, ?_⟩
  · show (startSchedStep3 _).idx = 0
    simpa [startSchedStep3] using h2idx
  · show (startSchedStep3 _).presetTimer = _
    simp [startSchedStep3, h2keep]
  · show (startSchedStep3 _).activeTimers = _
    simp [startSchedStep3, h2, h2keep]
  · intro t hp hmem
    have ht : t < s.nextId := by
      refine hfresh t ?_
      rw [hact, hp]; exact List.mem_singleton.mpr rfl
    have : (startScheduler s).activeTimers = [s.nextId] := by
      show (startSchedStep3 _).activeTimers = _
      simp [startSchedStep3, h2, h2keep]
    rw [this] at hmem
    have := List.mem_singleton.mp hmem
    omega
  · constructor
    · show (startSchedStep3 _).activeTimers =
        (startSchedStep3 _).presetTimer.toList
      simp [startSchedStep3, h2, h2keep, Option.toList]
    · intro t hmem
      have hA : (startScheduler s).activeTimers = [s.nextId] := by
        show (startSchedStep3 _).activeTimers = _
        simp [startSchedStep3, h2, h2keep]
      have hN : (startScheduler s).nextId = s.nextId + 1 := by
        show (startSchedStep3 _).nextId = _
        simp [startSchedStep3, h2keep]
      rw [hA] at hmem
      have := List.mem_singleton.mp hmem
      omega
  · intro st hst
    have hlen0 : s.activeTimers.length ≤ 1 := by
      rw [hact]; cases s.presetTimer <;> simp [Option.toList]
    have hlen1 : (startSchedStep1 s).activeTimers.length ≤ 1 := hlen0
    have hlen2 : (startSchedStep2 (startSchedStep1 s)).activeTimers.length
        ≤ 1 := by rw [h2]; decide
    have hlen3 : (startScheduler s).activeTimers.length ≤ 1 := by
      show (startSchedStep3 _).activeTimers.length ≤ 1
      simp [startSchedStep3, h2]
    simp only [startSchedulerStates, List.mem_cons,
      List.not_mem_nil, or_false] at hst
    rcases hst with rfl | rfl | rfl | rfl
    · exact hlen0
    · exact hlen1
    · exact hlen2
    · exact hlen3

/-- Witness for C7 at a concrete well-formed state (a second `start`
after an earlier one installed timer 3). -/
theorem startScheduler_idempotent_witness :
    (startScheduler ⟨5, some 3, [3], 4⟩).idx = 0 ∧
    (startScheduler ⟨5, some 3, [3], 4⟩).presetTimer = some 4 ∧
    (startScheduler ⟨5, some 3, [3], 4⟩).activeTimers = [4] ∧
    (∀ t, (⟨5, some 3, [3], 4⟩ : Sched).presetTimer = some t →
      t ∉ (startScheduler ⟨5, some 3, [3], 4⟩).activeTimers) ∧
    SchedInv (startScheduler ⟨5, some 3, [3], 4⟩) ∧
    ∀ st ∈ startSchedulerStates ⟨5, some 3, [3], 4⟩,
      st.activeTimers.length ≤ 1 :=
  startScheduler_idempotent ⟨5, some 3, [3], 4⟩ (by decide)

/-! ## AudioInput (`src/main.js`, class AudioInput)

`update()` reads the byte frequency buffer (`Uint8Array`, entries in
`0..255`), splits it at `b1 = Math.floor(n*0.15)` and
`m1 = Math.floor(n*0.55)`, averages each range with the divisor
floored at 1, divides by 255, and folds the result into the smoothed
features with EMA coefficient `k = 0.85`.  For buffer sizes that occur
here (the analyser bin count, ≤ 512) the double-precision products
`n*0.15` and `n*0.55` floor to the exact rational values `⌊15n/100⌋`
and `⌊55n/100⌋` used below. -/

/-- `Math.floor(n * 0.15)` — end of the bass range. -/
def bassEnd (n : ℕ) : ℕ := 15 * n / 100

/-- `Math.floor(n * 0.55)` — end of the mid range. -/
def midEnd (n : ℕ) : ℕ := 55 * n / 100

/-- The `avg(from, to)` closure of `AudioInput.update`:
`(Σ dataFreq[i] for i in [lo,hi)) / Math.max(1, to-from) / 255`. -/
def avg (freq : List ℕ) (lo hi : ℕ) : ℚ :=
  ((∑ i ∈ Finset.Ico lo hi, (freq.getD i 0 : ℚ)) /
    max 1 ((hi : ℚ) - (lo : ℚ))) / 255

theorem avg_divisor_pos (lo hi : ℕ) :
    (0 : ℚ) < max 1 ((hi : ℚ) - (lo : ℚ)) :=
  lt_of_lt_of_le one_pos (le_max_left _ _)

theorem avg_nonneg (freq : List ℕ) (lo hi : ℕ) : 0 ≤ avg freq lo hi := by
  unfold avg
  have hs : 0 ≤ ∑ i ∈ Finset.Ico lo hi, (freq.getD i 0 : ℚ) :=
    Finset.sum_nonneg fun i _ => by positivity
  have hd := avg_divisor_pos lo hi
  positivity

theorem avg_le_one (freq : List ℕ) (lo hi : ℕ)
    (hb : ∀ x ∈ freq, x ≤ 255) : avg freq lo hi ≤ 1 := by
  unfold avg
  have hentry : ∀ i : ℕ, (freq.getD i 0 : ℚ) ≤ 255 := by
    intro i
    by_cases h : i < freq.length
    · rw [List.getD_eq_getElem _ _ h]
      exact_mod_cast hb _ (List.getElem_mem _)
    · rw [List.getD_eq_default _ _ (le_of_not_lt h)]
      norm_num
  have hsum : ∑ i ∈ Finset.Ico lo hi, (freq.getD i 0 : ℚ) ≤
      (hi - lo : ℕ) * 255 := by
    calc ∑ i ∈ Finset.Ico lo hi, (freq.getD i 0 : ℚ)
        ≤ ∑ _i ∈ Finset.Ico lo hi, (255 : ℚ) :=
          Finset.sum_le_sum fun i _ => hentry i
      _ = (hi - lo : ℕ) * 255 := by
          rw [Finset.sum_const, Nat.card_Ico, nsmul_eq_mul]
  have hcast : ((hi - lo : ℕ) : ℚ) ≤ max 1 ((hi : ℚ) - (lo : ℚ)) := by
    rcases le_total lo hi with h | h
    · rw [Nat.cast_sub h]
      exact le_max_right _ _
    · have : hi - lo = 0 := Nat.sub_eq_zero_of_le h
      rw [this]
      exact le_trans (by norm_num) (le_max_left _ _)
  have hd := avg_divisor_pos lo hi
  rw [div_le_one (by norm_num), div_le_iff₀ hd]
  calc ∑ i ∈ Finset.Ico lo hi, (freq.getD i 0 : ℚ)
      ≤ (hi - lo : ℕ) * 255 := hsum
    _ ≤ max 1 ((hi : ℚ) - (lo : ℚ)) * 255 := by
        have : (0:ℚ) ≤ 255 := by norm_num
        exact mul_le_mul_of_nonneg_right hcast this
    _ = 255 * max 1 ((hi : ℚ) - (lo : ℚ)) := mul_comm _ _

theorem bassEnd_le_midEnd (n : ℕ) : bassEnd n ≤ midEnd n :=
  Nat.div_le_div_right (Nat.mul_le_mul_right n (by norm_num))

theorem midEnd_le (n : ℕ) : midEnd n ≤ n := by
  have h1 : 55 * n / 100 ≤ 55 * n / 55 :=
    Nat.div_le_div_left (by norm_num) (by norm_num)
  have h2 : 55 * n / 55 = n := Nat.mul_div_cancel_left n (by norm_num)
  unfold midEnd
  omega

/-- C8: the three band ranges of `AudioInput.update` are contiguous,
non-overlapping, and cover all bins `[0, n)`; every band divisor is
floored at `1` (so the averaging never divides by zero, even for a
zero-width band), and with byte magnitudes `≤ 255` every normalised
band average lies in `[0, 1]`. -/
theorem band_partition_no_div_zero (freq : List ℕ)
    (hb : ∀ x ∈ freq, x ≤ 255) :
    (∀ lo hi : ℕ, (1 : ℚ) ≤ max 1 ((hi : ℚ) - (lo : ℚ))) ∧
    bassEnd freq.length ≤ midEnd freq.length ∧
    midEnd freq.length ≤ freq.length ∧
    (Finset.Ico 0 (bassEnd freq.length) ∪
      Finset.Ico (bassEnd freq.length) (midEnd freq.length) ∪
      Finset.Ico (midEnd freq.length) freq.length =
      Finset.Ico 0 freq.length) ∧
    Disjoint (Finset.Ico 0 (bassEnd freq.length))
      (Finset.Ico (bassEnd freq.length) (midEnd freq.length)) ∧
    Disjoint (Finset.Ico (bassEnd freq.length) (midEnd freq.length))
      (Finset.Ico (midEnd freq.length) freq.length) ∧
    Disjoint (Finset.Ico 0 (bassEnd freq.length))
      (Finset.Ico (midEnd freq.length) freq.length) ∧
    (0 ≤ avg freq 0 (bassEnd freq.length) ∧
      avg freq 0 (bassEnd freq.length) ≤ 1) ∧
    (0 ≤ avg freq (bassEnd freq.length) (midEnd freq.length) ∧
      avg freq (bassEnd freq.length) (midEnd freq.length) ≤ 1) ∧
    (0 ≤ avg freq (midEnd freq.length) freq.length ∧
      avg freq (midEnd freq.length) freq.length ≤ 1) := by
  have hbm := bassEnd_le_midEnd freq.length
  have hmn := midEnd_le freq.length
  refine ⟨fun lo hi => le_max_left _ _, hbm, hmn, ?_, ?_, ?_, ?_,
    ⟨avg_nonneg _ _ _, avg_le_one _ _ _ hb⟩,
    ⟨avg_nonneg _ _ _, avg_le_one _ _ _ hb⟩,
    ⟨avg_nonneg _ _ _, avg_le_one _ _ _ hb⟩⟩
  · rw [Finset.Ico_union_Ico_eq_Ico (Nat.zero_le _) hbm,
      Finset.Ico_union_Ico_eq_Ico (Nat.zero_le _) hmn]
  · exact Finset.Ico_disjoint_Ico_consecutive _ _ _
  · exact Finset.Ico_disjoint_Ico_consecutive _ _ _
  · exact Disjoint.mono_left
      (Finset.Ico_subset_Ico le_rfl hbm)
      (Finset.Ico_disjoint_Ico_consecutive 0 (midEnd freq.length) _)

/-- Witness for C8 on the one-bin buffer `[7]`, where both the bass
range `[0, 0)` and the mid range `[0, 0)` are zero-width. -/
theorem band_partition_no_div_zero_witness :
    (∀ lo hi : ℕ, (1 : ℚ) ≤ max 1 ((hi : ℚ) - (lo : ℚ))) ∧
    bassEnd 1 ≤ midEnd 1 ∧
    midEnd 1 ≤ 1 ∧
    (Finset.Ico 0 (bassEnd 1) ∪ Finset.Ico (bassEnd 1) (midEnd 1) ∪
      Finset.Ico (midEnd 1) 1 = Finset.Ico 0 1) ∧
    Disjoint (Finset.Ico 0 (bassEnd 1))
      (Finset.Ico (bassEnd 1) (midEnd 1)) ∧
    Disjoint (Finset.Ico (bassEnd 1) (midEnd 1))
      (Finset.Ico (midEnd 1) 1) ∧
    Disjoint (Finset.Ico 0 (bassEnd 1)) (Finset.Ico (midEnd 1) 1) ∧
    (0 ≤ avg [7] 0 (bassEnd 1) ∧ avg [7] 0 (bassEnd 1) ≤ 1) ∧
    (0 ≤ avg [7] (bassEnd 1) (midEnd 1) ∧
      avg [7] (bassEnd 1) (midEnd 1) ≤ 1) ∧
    (0 ≤ avg [7] (midEnd 1) 1 ∧ avg [7] (midEnd 1) 1 ≤ 1) :=
  band_partition_no_div_zero [7] (by decide)

/-! ### EMA smoothing (`src/main.js` lines 139-143) -/

/-- The fixed smoothing coefficient `this._smooth = 0.85`. -/
def smoothK : ℚ := 85 / 100

/-- The four smoothed features of `AudioInput`. -/
structure Features where
  level : ℚ
  bass : ℚ
  mid : ℚ
  treble : ℚ
deriving DecidableEq, Repr

/-- One EMA step: `feature = feature*k + rawValue*(1-k)`. -/
def emaStep (prev raw : ℚ) : ℚ := prev * smoothK + raw * (1 - smoothK)

/-- The smoothing block of `AudioInput.update`: all four features are
updated independently by `emaStep`. -/
def updateFeatures (st raw : Features) : Features :=
  { level := emaStep st.level raw.level
    bass := emaStep st.bass raw.bass
    mid := emaStep st.mid raw.mid
    treble := emaStep st.treble raw.treble }

/-- `n` repeated EMA updates of a single feature with constant raw
input `c`. -/
def iterEma (x c : ℚ) (n : ℕ) : ℚ := (fun y => emaStep y c)^[n] x

/-- `n` repeated `update` smoothing steps with a constant raw feature
vector. -/
def iterFeatures (st raw : Features) (n : ℕ) : Features :=
  (fun s => updateFeatures s raw)^[n] st

theorem iterEma_succ (x c : ℚ) (n : ℕ) :
    iterEma x c (n + 1) = emaStep (iterEma x c n) c := by
  unfold iterEma
  rw [Function.iterate_succ_apply']

theorem iterEma_closed_form (x c : ℚ) (n : ℕ) :
    iterEma x c n - c = smoothK ^ n * (x - c) := by
  induction n with
  | zero => simp [iterEma]
  | succ n ih =>
      rw [iterEma_succ]
      have : emaStep (iterEma x c n) c - c = smoothK * (iterEma x c n - c) := by
        unfold emaStep; ring
      rw [this, ih, pow_succ]
      ring

theorem iterFeatures_level (st raw : Features) (n : ℕ) :
    (iterFeatures st raw n).level = iterEma st.level raw.level n ∧
    (iterFeatures st raw n).bass = iterEma st.bass raw.bass n ∧
    (iterFeatures st raw n).mid = iterEma st.mid raw.mid n ∧
    (iterFeatures st raw n).treble = iterEma st.treble raw.treble n := by
  induction n with
  | zero => exact ⟨rfl, rfl, rfl, rfl⟩
  | succ n ih =>
      obtain ⟨h1, h2, h3, h4⟩ := ih
      unfold iterFeatures at h1 h2 h3 h4 ⊢
      rw [Function.iterate_succ_apply']
      exact ⟨by rw [iterEma_succ, ← h1]; rfl,
        by rw [iterEma_succ, ← h2]; rfl,
        by rw [iterEma_succ, ← h3]; rfl,
        by rw [iterEma_succ, ← h4]; rfl⟩

theorem iterEma_mono_below (x c : ℚ) (hxc : x ≤ c) (n : ℕ) :
    iterEma x c n ≤ iterEma x c (n + 1) ∧ iterEma x c n ≤ c := by
  have hk0 : (0 : ℚ) ≤ smoothK := by norm_num [smoothK]
  have hk1 : smoothK ≤ (1 : ℚ) := by norm_num [smoothK]
  have hd : x - c ≤ 0 := by linarith
  have hpow : smoothK ^ (n + 1) ≤ smoothK ^ n :=
    pow_le_pow_of_le_one hk0 hk1 (Nat.le_succ n)
  have h1 := iterEma_closed_form x c n
  have h2 := iterEma_closed_form x c (n + 1)
  constructor
  · have := mul_le_mul_of_nonpos_right hpow hd
    linarith
  · have hnn : 0 ≤ smoothK ^ n := pow_nonneg hk0 n
    have := mul_nonpos_of_nonneg_of_nonpos hnn hd
    linarith

theorem iterEma_mono_above (x c : ℚ) (hxc : c ≤ x) (n : ℕ) :
    iterEma x c (n + 1) ≤ iterEma x c n ∧ c ≤ iterEma x c n := by
  have hk0 : (0 : ℚ) ≤ smoothK := by norm_num [smoothK]
  have hk1 : smoothK ≤ (1 : ℚ) := by norm_num [smoothK]
  have hd : 0 ≤ x - c := by linarith
  have hpow : smoothK ^ (n + 1) ≤ smoothK ^ n :=
    pow_le_pow_of_le_one hk0 hk1 (Nat.le_succ n)
  have h1 := iterEma_closed_form x c n
  have h2 := iterEma_closed_form x c (n + 1)
  constructor
  · have := mul_le_mul_of_nonneg_right hpow hd
    linarith
  · have hnn : 0 ≤ smoothK ^ n := pow_nonneg hk0 n
    have := mul_nonneg hnn hd
    linarith

theorem iterEma_tendsto (x c : ℚ) :
    Filter.Tendsto (fun n => ((iterEma x c n : ℚ) : ℝ))
      Filter.atTop (nhds (c : ℝ)) := by
  have hform : ∀ n, ((iterEma x c n : ℚ) : ℝ) =
      (c : ℝ) + ((smoothK : ℚ) : ℝ) ^ n * ((x : ℝ) - (c : ℝ)) := by
    intro n
    have h := iterEma_closed_form x c n
    have hcast := congrArg (fun q : ℚ => ((q : ℝ))) h
    push_cast at hcast
    linarith
  have h0 : (0 : ℝ) ≤ ((smoothK : ℚ) : ℝ) := by norm_num [smoothK]
  have h1 : ((smoothK : ℚ) : ℝ) < 1 := by norm_num [smoothK]
  have hpow := tendsto_pow_atTop_nhds_zero_of_lt_one h0 h1
  have hlim := hpow.mul_const ((x : ℝ) - (c : ℝ))
  rw [zero_mul] at hlim
  have hlim2 := hlim.const_add (c : ℝ)
  rw [add_zero] at hlim2
  exact Filter.Tendsto.congr (fun n => (hform n).symm) hlim2

/-- C9: each of the four features is updated by
`feature := feature*k + raw*(1-k)` with `k = 0.85`; iterating the
update with a constant raw vector acts as the scalar EMA on every
component, and for a constant input `c` the iterates converge
monotonically to `c` — non-decreasing and bounded by `c` when starting
below, non-increasing and bounded below when starting above — with the
explicit geometric error term `0.85^n·(x-c)` and limit `c`. -/
theorem ema_converges_monotone (st raw : Features) (x c : ℚ) :
    updateFeatures st raw =
      { level := st.level * smoothK + raw.level * (1 - smoothK)
        bass := st.bass * smoothK + raw.bass * (1 - smoothK)
        mid := st.mid * smoothK + raw.mid * (1 - smoothK)
        treble := st.treble * smoothK + raw.treble * (1 - smoothK) } ∧
    smoothK = 85 / 100 ∧
    (∀ n, (iterFeatures st raw n).level = iterEma st.level raw.level n ∧
      (iterFeatures st raw n).bass = iterEma st.bass raw.bass n ∧
      (iterFeatures st raw n).mid = iterEma st.mid raw.mid n ∧
      (iterFeatures st raw n).treble = iterEma st.treble raw.treble n) ∧
    (x ≤ c → ∀ n, iterEma x c n ≤ iterEma x c (n + 1) ∧
      iterEma x c n ≤ c) ∧
    (c ≤ x → ∀ n, iterEma x c (n + 1) ≤ iterEma x c n ∧
      c ≤ iterEma x c n) ∧
    (∀ n, iterEma x c n - c = smoothK ^ n * (x - c)) ∧
    Filter.Tendsto (fun n => ((iterEma x c n : ℚ) : ℝ))
      Filter.atTop (nhds (c : ℝ)) :=
  ⟨rfl, rfl, iterFeatures_level st raw,
    fun h n => iterEma_mono_below x c h n,
    fun h n => iterEma_mono_above x c h n,
    iterEma_closed_form x c,
    iterEma_tendsto x c⟩

/-- Witness for C9: starting from the zero feature vector with constant
raw input `1`, one update moves the level from `0` to `3/20` and the
iterates stay below the target. -/
theorem ema_converges_monotone_witness :
    iterEma 0 1 1 ≤ iterEma 0 1 2 ∧ iterEma 0 1 1 ≤ 1 :=
  (ema_converges_monotone ⟨0, 0, 0, 0⟩ ⟨1, 1, 1, 1⟩ 0 1).2.2.2.1
    (by norm_num) 1

/-! ## Verse overlay (the p5 sketch, `createVerseOverlay`)

The per-frame `p.draw` callback computes `charsVisible`, latches the
derived timestamps the first frame the reveal completes, computes the
alpha envelope, and advances to the next verse once
`cycleDoneMs` is reached.  `Math.random` palette selection is modelled
by an explicit index parameter. -/

/-- A palette entry from `CONFIG.palette`. -/
structure PalColor where
  name : String
  hex : String
deriving DecidableEq, Repr

/-- The sixteen gemstone colors of `CONFIG.palette`. -/
def palette : List PalColor :=
  [⟨"Sardius", "#A81919"⟩, ⟨"Vermilion", "#894014"⟩,
   ⟨"Amber", "#675210"⟩, ⟨"Topaz", "#50590D"⟩,
   ⟨"Chrysolyte", "#365E0E"⟩, ⟨"Emerald", "#19620F"⟩,
   ⟨"Chrysoprasus", "#0F6224"⟩, ⟨"Beryl", "#0E6042"⟩,
   ⟨"Crystal", "#0E5E5E"⟩, ⟨"Chalcedony", "#145A83"⟩,
   ⟨"Sapphire", "#1E48C7"⟩, ⟨"Jacinth", "#3F25F6"⟩,
   ⟨"Purple", "#751ECB"⟩, ⟨"Amethyst", "#8F18A0"⟩,
   ⟨"Scarlet", "#9C177A"⟩, ⟨"Crimson", "#A3194D"⟩]

/-- One verse record `{ ref, text }`. -/
structure Verse where
  ref : String
  text : String
deriving DecidableEq, Repr

/-- The fixed `verses` array of the overlay. -/
def verses : List Verse :=
  [⟨"Psalm 119:105",
    "Thy word is a lamp unto my feet, and a light unto my path."⟩,
   ⟨"Proverbs 3:5–6",
    "Trust in the LORD with all thine heart; and lean not unto thine own understanding. In all thy ways acknowledge him, and he shall direct thy paths."⟩,
   ⟨"Isaiah 41:10",
    "Fear thou not; for I am with thee: be not dismayed; for I am thy God: I will strengthen thee; yea, I will help thee; yea, I will uphold thee with the right hand of my righteousness."⟩,
   ⟨"Matthew 11:28",
    "Come unto me, all ye that labour and are heavy laden, and I will give you rest."⟩,
   ⟨"John 14:6",
    "Jesus saith unto him, I am the way, the truth, and the life: no man cometh unto the Father, but by me."⟩,
   ⟨"Romans 8:28",
    "And we know that all things work together for good to them that love God, to them who are the called according to his purpose."⟩,
   ⟨"2 Timothy 1:7",
    "For God hath not given us the spirit of fear; but of power, and of love, and of a sound mind."⟩,
   ⟨"Philippians 4:6–7",
    "Be careful for nothing; but in every thing by prayer and supplication with thanksgiving let your requests be made known unto God. And the peace of God, which passeth all understanding, shall keep your hearts and minds through Christ Jesus."⟩]

/-- `buildFullText`: quotation mark + verse body + quotation mark +
paragraph break + em-dash + citation. -/
def buildFullText (v : Verse) : String :=
  "“" ++ v.text ++ "”\n\n— " ++ v.ref

/-- The verse timing configuration `CONFIG.verse`. -/
structure VerseCfg where
  msPerChar : ℚ
  holdMs : ℚ
  fadeMs : ℚ
  gapMs : ℚ
deriving DecidableEq, Repr

/-- The overlay's mutable state: `verseIndex`, `accent`, and the four
timing variables (`0` models the cleared/unlatched value). -/
structure VState where
  verseIndex : ℕ
  accent : PalColor
  startMs : ℚ
  revealDoneMs : ℚ
  fadeStartMs : ℚ
  cycleDoneMs : ℚ
deriving DecidableEq, Repr

/-- `current = verses[verseIndex]`. -/
def currentVerse (s : VState) : Verse := verses.getD s.verseIndex ⟨"", ""⟩

/-- `charsVisible = Math.floor((now - startMs) / msPerChar)`. -/
def charsVisibleOf (cfg : VerseCfg) (s : VState) (now : ℚ) : ℤ :=
  ⌊(now - s.startMs) / cfg.msPerChar⌋

/-- `nextVerse(nowMs)`: advance the verse index cyclically, draw a new
palette color (modelled by the index `rnd`), restart the reveal clock
and clear every derived timestamp. -/
def nextVerse (s : VState) (now : ℚ) (rnd : Fin palette.length) : VState :=
  { verseIndex := (s.verseIndex + 1) % verses.length
    accent := palette.get rnd
    startMs := now
    revealDoneMs := 0
    fadeStartMs := 0
    cycleDoneMs := 0 }

/-- The reveal-completion latch of `p.draw` (lines 106-110): on the
first frame with `charsVisible >= totalChars`, record `revealDoneMs`
and derive `fadeStartMs` and `cycleDoneMs`. -/
def latchStep (cfg : VerseCfg) (s : VState) (now : ℚ) : VState :=
  if (buildFullText (currentVerse s)).length ≤ charsVisibleOf cfg s now ∧
      s.revealDoneMs = 0 then
    { s with revealDoneMs := now
             fadeStartMs := now + cfg.holdMs
             cycleDoneMs := now + cfg.holdMs + cfg.fadeMs + cfg.gapMs }
  else s

/-- The state transition of one `p.draw` frame at time `now`: the
reveal latch followed by the cycle-completion check
(`if (cycleDoneMs && now >= cycleDoneMs) nextVerse(now)`); drawing
itself does not mutate the state. -/
def tick (cfg : VerseCfg) (s : VState) (now : ℚ)
    (rnd : Fin palette.length) : VState :=
  if (latchStep cfg s now).cycleDoneMs ≠ 0 ∧
      (latchStep cfg s now).cycleDoneMs ≤ now then
    nextVerse (latchStep cfg s now) now rnd
  else latchStep cfg s now

/-- The alpha envelope of `p.draw` (lines 113-117):
`alpha = 1` unless `fadeStartMs` is set (truthy) and reached, in which
case `alpha = 1 - clamp01((now - fadeStartMs) / fadeMs)`. -/
def alphaOf (now fadeStartMs fadeMs : ℚ) : ℚ :=
  if fadeStartMs ≠ 0 ∧ fadeStartMs ≤ now then
    1 - clamp01 ((now - fadeStartMs) / fadeMs)
  else 1

theorem clamp01_of_nonpos {x : ℚ} (h : x ≤ 0) : clamp01 x = 0 := by
  unfold clamp01
  rw [min_eq_right (le_trans h zero_le_one), max_eq_left h]

theorem clamp01_of_mem {x : ℚ} (h0 : 0 ≤ x) (h1 : x ≤ 1) :
    clamp01 x = x := by
  unfold clamp01
  rw [min_eq_right h1, max_eq_right h0]

theorem clamp01_of_one_le {x : ℚ} (h : 1 ≤ x) : clamp01 x = 1 := by
  unfold clamp01
  rw [min_eq_left h, max_eq_right zero_le_one]

theorem clamp01_lipschitz (a b : ℚ) :
    |clamp01 a - clamp01 b| ≤ |a - b| := by
  unfold clamp01
  rcases le_total a 0 with ha | ha <;> rcases le_total b 0 with hb | hb <;>
    rcases le_total 1 a with ha1 | ha1 <;> rcases le_total 1 b with hb1 | hb1 <;>
    simp only [max_def, min_def] <;> split_ifs <;>
    rw [abs_le] <;> constructor <;>
    cases abs_cases (a - b) <;> linarith

/-- For a latched (nonzero) `fadeStartMs` the guard can be dropped:
the envelope is `1 - clamp01((now - fadeStartMs)/fadeMs)` everywhere,
because the argument is negative before the fade starts. -/
theorem alphaOf_eq_clamp (now fs fm : ℚ) (hfs : 0 < fs) (hfm : 0 < fm) :
    alphaOf now fs fm = 1 - clamp01 ((now - fs) / fm) := by
  unfold alphaOf
  split_ifs with h
  · rfl
  · push_neg at h
    have hlt : now < fs := by
      by_contra hge
      exact absurd (h (ne_of_gt hfs)) (by push_neg; linarith)
    have harg : (now - fs) / fm ≤ 0 :=
      div_nonpos_of_nonpos_of_nonneg (by linarith) (le_of_lt hfm)
    rw [clamp01_of_nonpos harg]
    norm_num

/-- C2: the alpha envelope at a latched `fadeStartTime` `fs` with fade
duration `fadeMs`: equal to `1` strictly before `fs` (Revealing and
Holding), equal to `1 - clamp01((now-fs)/fadeMs)` from `fs` on, linear
on the fade interval, `0` from `fs + fadeMs` onward (through Gap), and
continuous in `now` (`1/fadeMs`-Lipschitz, hence uniformly
continuous). -/
theorem alpha_envelope (fs fm : ℚ) (hfs : 0 < fs) (hfm : 0 < fm) :
    (∀ now, now < fs → alphaOf now fs fm = 1) ∧
    (∀ now, fs ≤ now →
      alphaOf now fs fm = 1 - clamp01 ((now - fs) / fm)) ∧
    (∀ now, fs ≤ now → now ≤ fs + fm →
      alphaOf now fs fm = 1 - (now - fs) / fm) ∧
    (∀ now, fs + fm ≤ now → alphaOf now fs fm = 0) ∧
    (∀ n1 n2, |alphaOf n1 fs fm - alphaOf n2 fs fm| ≤ |n1 - n2| / fm) ∧
    (∀ ε : ℚ, 0 < ε → ∃ δ : ℚ, 0 < δ ∧ ∀ n1 n2, |n1 - n2| < δ →
      |alphaOf n1 fs fm - alphaOf n2 fs fm| < ε) := by
  have hglob : ∀ now, alphaOf now fs fm = 1 - clamp01 ((now - fs) / fm) :=
    fun now => alphaOf_eq_clamp now fs fm hfs hfm
  have hlip : ∀ n1 n2,
      |alphaOf n1 fs fm - alphaOf n2 fs fm| ≤ |n1 - n2| / fm := by
    intro n1 n2
    rw [hglob n1, hglob n2]
    have h1 : (1 - clamp01 ((n1 - fs) / fm)) -
        (1 - clamp01 ((n2 - fs) / fm)) =
        clamp01 ((n2 - fs) / fm) - clamp01 ((n1 - fs) / fm) := by ring
    rw [h1]
    calc |clamp01 ((n2 - fs) / fm) - clamp01 ((n1 - fs) / fm)|
        ≤ |(n2 - fs) / fm - (n1 - fs) / fm| := clamp01_lipschitz _ _
      _ = |n2 - n1| / fm := by
          rw [div_sub_div_same, abs_div, abs_of_pos hfm]
          ring_nf
      _ = |n1 - n2| / fm := by rw [abs_sub_comm]
  refine ⟨?_, ?_, ?_, ?_, hlip, ?_⟩
  · intro now h
    unfold alphaOf
    rw [if_neg]
    push_neg
    intro _
    linarith
  · intro now _
    exact hglob now
  · intro now h1 h2
    rw [hglob now]
    have h0 : 0 ≤ (now - fs) / fm :=
      div_nonneg (by linarith) (le_of_lt hfm)
    have h1' : (now - fs) / fm ≤ 1 := by
      rw [div_le_one hfm]; linarith
    rw [clamp01_of_mem h0 h1']
  · intro now h
    rw [hglob now]
    have : (1 : ℚ) ≤ (now - fs) / fm := by
      rw [le_div_iff₀ hfm]; linarith
    rw [clamp01_of_one_le this]
    norm_num
  · intro ε hε
    refine ⟨ε * fm, by positivity, fun n1 n2 hn => ?_⟩
    calc |alphaOf n1 fs fm - alphaOf n2 fs fm|
        ≤ |n1 - n2| / fm := hlip n1 n2
      _ < ε := by rw [div_lt_iff₀ hfm]; exact hn

/-- Witness for C2 at `fadeStartTime = 10400`, `fadeMs = 1000` (the
spec's scenario timings), evaluated midway through the fade. -/
theorem alpha_envelope_witness :
    alphaOf 10900 10400 1000 = 1 - ((10900 : ℚ) - 10400) / 1000 :=
  (alpha_envelope 10400 1000 (by norm_num) (by norm_num)).2.2.1 10900
    (by norm_num) (by norm_num)

/-- C3: a tick that observes `now ≥ cycleDoneMs` (with the timestamps
latched, as they always are when `cycleDoneMs ≠ 0`) performs exactly
one full cycle advance: the verse index increments once modulo the
verse count (8), a fresh palette color becomes the accent,
`startMs` is set to `now`, all three derived timestamps are cleared in
the same step, and `charsVisible` drops to 0; moreover no tick at all
can change the verse index without performing this full reset. -/
theorem tick_cycle_advance (cfg : VerseCfg) (s : VState) (now : ℚ)
    (rnd : Fin palette.length) (hrev : s.revealDoneMs ≠ 0)
    (hc : s.cycleDoneMs ≠ 0) (hnow : s.cycleDoneMs ≤ now) :
    tick cfg s now rnd =
      { verseIndex := (s.verseIndex + 1) % verses.length
        accent := palette.get rnd
        startMs := now
        revealDoneMs := 0
        fadeStartMs := 0
        cycleDoneMs := 0 } ∧
    verses.length = 8 ∧
    palette.get rnd ∈ palette ∧
    charsVisibleOf cfg (tick cfg s now rnd) now = 0 ∧
    (∀ (s2 : VState) (n2 : ℚ) (r2 : Fin palette.length),
      (tick cfg s2 n2 r2).verseIndex ≠ s2.verseIndex →
      (tick cfg s2 n2 r2).verseIndex = (s2.verseIndex + 1) % verses.length ∧
      (tick cfg s2 n2 r2).startMs = n2 ∧
      (tick cfg s2 n2 r2).revealDoneMs = 0 ∧
      (tick cfg s2 n2 r2).fadeStartMs = 0 ∧
      (tick cfg s2 n2 r2).cycleDoneMs = 0) := by
  have hlatch : latchStep cfg s now = s := by
    unfold latchStep
    rw [if_neg]
    intro h
    exact hrev h.2
  have hmain : tick cfg s now rnd = nextVerse s now rnd := by
    unfold tick
    rw [hlatch, if_pos ⟨hc, hnow⟩]
  refine ⟨hmain, rfl, List.get_mem _ _ rnd.2, ?_, ?_⟩
  · rw [hmain]
    unfold charsVisibleOf nextVerse
    simp
  · intro s2 n2 r2 hne
    have hkeep : (latchStep cfg s2 n2).verseIndex = s2.verseIndex := by
      unfold latchStep
      split_ifs <;> rfl
    unfold tick at hne ⊢
    split_ifs at hne ⊢ with h
    · refine ⟨?_, rfl, rfl, rfl, rfl⟩
      show ((latchStep cfg s2 n2).verseIndex + 1) % verses.length = _
      rw [hkeep]
    · exact absurd hkeep hne

/-- Witness for C3 on a concrete latched state past its
`cycleDoneMs`. -/
theorem tick_cycle_advance_witness :
    tick ⟨28, 9000, 1000, 600⟩
        ⟨0, ⟨"Sardius", "#A81919"⟩, 5, 2000, 11000, 12600⟩ 13000
        ⟨3, by decide⟩ =
      { verseIndex := (0 + 1) % verses.length
        accent := palette.get ⟨3, by decide⟩
        startMs := 13000
        revealDoneMs := 0
        fadeStartMs := 0
        cycleDoneMs := 0 } :=
  (tick_cycle_advance ⟨28, 9000, 1000, 600⟩
    ⟨0, ⟨"Sardius", "#A81919"⟩, 5, 2000, 11000, 12600⟩ 13000
    ⟨3, by decide⟩ (by norm_num) (by norm_num) (by norm_num)).1

theorem buildFullText_length_pos (v : Verse) :
    1 ≤ (buildFullText v).length := by
  unfold buildFullText
  rw [String.length_append, String.length_append, String.length_append]
  have h : ("“" : String).length = 1 := rfl
  omega

/-- If the reveal is complete (`charsVisible ≥ totalChars`) then the
frame time is strictly positive: at least one character interval has
elapsed since `startMs ≥ 0`. -/
theorem reveal_reached_now_pos (cfg : VerseCfg) (s : VState) (now : ℚ)
    (hmpc : 0 < cfg.msPerChar) (hstart : 0 ≤ s.startMs)
    (hchars : ((buildFullText (currentVerse s)).length : ℤ) ≤
      charsVisibleOf cfg s now) : 0 < now := by
  unfold charsVisibleOf at hchars
  have h1 : (1 : ℤ) ≤ ⌊(now - s.startMs) / cfg.msPerChar⌋ :=
    le_trans (by exact_mod_cast buildFullText_length_pos _) hchars
  have h2 : ((1 : ℤ) : ℚ) ≤ (now - s.startMs) / cfg.msPerChar :=
    Int.le_floor.mp h1
  rw [le_div_iff₀ hmpc] at h2
  push_cast at h2
  linarith

/-- The reachable-state invariant of the overlay: the reveal clock is
nonnegative and the derived timestamps are latched together, so a
nonzero `cycleDoneMs` implies a nonzero `revealDoneMs`.  It holds for
the `p.setup` state (`startMs = p.millis() ≥ 0`, all derived
timestamps `0`). -/
def VInv (s : VState) : Prop :=
  0 ≤ s.startMs ∧ (s.cycleDoneMs ≠ 0 → s.revealDoneMs ≠ 0)

/-- Every `p.draw` frame at a nonnegative time preserves the overlay
invariant, which justifies assuming `revealDoneMs ≠ 0` whenever
`cycleDoneMs ≠ 0` in the cycle-advance analysis. -/
theorem tick_preserves_VInv (cfg : VerseCfg) (s : VState) (now : ℚ)
    (rnd : Fin palette.length) (hmpc : 0 < cfg.msPerChar)
    (hnow : 0 ≤ now) (h : VInv s) : VInv (tick cfg s now rnd) := by
  obtain ⟨hstart, himp⟩ := h
  unfold tick
  split_ifs with hc
  · exact ⟨hnow, fun hne => absurd rfl hne⟩
  · unfold latchStep at hc ⊢
    split_ifs with hl
    · obtain ⟨hchars, _⟩ := hl
      have hpos := reveal_reached_now_pos cfg s now hmpc hstart hchars
      exact ⟨hstart, fun _ => ne_of_gt hpos⟩
    · exact ⟨hstart, himp⟩

/-- C4: on the first tick at which `charsVisible` reaches `totalChars`
(the unlatched state has `revealDoneMs = 0`), the tick latches
`revealDoneMs = now`, `fadeStartMs = now + holdMs` and
`cycleDoneMs = fadeStartMs + fadeMs + gapMs`, changing nothing else;
and every later tick of the same cycle (any time before
`cycleDoneMs`) leaves the state — in particular all three derived
timestamps — untouched, so they are computed exactly once per
cycle. -/
theorem reveal_latch_once (cfg : VerseCfg) (s : VState) (now : ℚ)
    (rnd : Fin palette.length)
    (hmpc : 0 < cfg.msPerChar) (hh : 0 < cfg.holdMs)
    (hf : 0 < cfg.fadeMs) (hg : 0 < cfg.gapMs)
    (hstart : 0 ≤ s.startMs) (hrev : s.revealDoneMs = 0)
    (hchars : ((buildFullText (currentVerse s)).length : ℤ) ≤
      charsVisibleOf cfg s now) :
    tick cfg s now rnd =
      { s with revealDoneMs := now
               fadeStartMs := now + cfg.holdMs
               cycleDoneMs := now + cfg.holdMs + cfg.fadeMs + cfg.gapMs } ∧
    (∀ (n2 : ℚ) (r2 : Fin palette.length),
      n2 < now + cfg.holdMs + cfg.fadeMs + cfg.gapMs →
      tick cfg (tick cfg s now rnd) n2 r2 = tick cfg s now rnd) := by
  have hpos : 0 < now :=
    reveal_reached_now_pos cfg s now hmpc hstart hchars
  have hlatch : latchStep cfg s now =
      { s with revealDoneMs := now
               fadeStartMs := now + cfg.holdMs
               cycleDoneMs := now + cfg.holdMs + cfg.fadeMs + cfg.gapMs } := by
    unfold latchStep
    rw [if_pos ⟨hchars, hrev⟩]
  have hmain : tick cfg s now rnd =
      { s with revealDoneMs := now
               fadeStartMs := now + cfg.holdMs
               cycleDoneMs := now + cfg.holdMs + cfg.fadeMs + cfg.gapMs } := by
    unfold tick
    rw [hlatch, if_neg]
    intro h
    obtain ⟨-, h2⟩ := h
    dsimp only at h2
    linarith
  refine ⟨hmain, fun n2 r2 hn2 => ?_⟩
  rw [hmain]
  have hlatch2 : latchStep cfg
      { s with revealDoneMs := now
               fadeStartMs := now + cfg.holdMs
               cycleDoneMs := now + cfg.holdMs + cfg.fadeMs + cfg.gapMs }
      n2 =
      { s with revealDoneMs := now
               fadeStartMs := now + cfg.holdMs
               cycleDoneMs := now + cfg.holdMs + cfg.fadeMs + cfg.gapMs } := by
    unfold latchStep
    rw [if_neg]
    intro h
    obtain ⟨-, h2⟩ := h
    dsimp only at h2
    linarith
  unfold tick
  rw [hlatch2, if_neg]
  intro h
  obtain ⟨-, h2⟩ := h
  dsimp only at h2
  linarith

/-- Witness for C4: the fresh first verse (length 77) fully revealed
by `now = 2856 = 28·102` with the spec's scenario timings. -/
theorem reveal_latch_once_witness :
    tick ⟨28, 9000, 1000, 600⟩
        ⟨0, ⟨"Sardius", "#A81919"⟩, 0, 0, 0, 0⟩ 2856 ⟨0, by decide⟩ =
      { (⟨0, ⟨"Sardius", "#A81919"⟩, 0, 0, 0, 0⟩ : VState) with
          revealDoneMs := 2856
          fadeStartMs := 2856 + (9000 : ℚ)
          cycleDoneMs := 2856 + (9000 : ℚ) + 1000 + 600 } :=
  (reveal_latch_once ⟨28, 9000, 1000, 600⟩
    ⟨0, ⟨"Sardius", "#A81919"⟩, 0, 0, 0, 0⟩ 2856 ⟨0, by decide⟩
    (by norm_num) (by norm_num) (by norm_num) (by norm_num)
    (by norm_num) rfl (by
      have hlen : ((buildFullText (currentVerse
          ⟨0, ⟨"Sardius", "#A81919"⟩, 0, 0, 0, 0⟩)).length : ℤ) = 77 := by
        decide
      rw [hlen]
      unfold charsVisibleOf
      have harg : ((2856 : ℚ) -
          (⟨0, ⟨"Sardius", "#A81919"⟩, 0, 0, 0, 0⟩ : VState).startMs) /
          (⟨28, 9000, 1000, 600⟩ : VerseCfg).msPerChar = ((102 : ℤ) : ℚ) := by
        norm_num
      rw [harg, Int.floor_intCast]
      norm_num)).1

/-! ### Line wrapping (`wrapLines`, overlay lines 55-78)

`wrapLines(p, str, maxWidth)` splits `str` on `"\n"`, pushes an empty
line for each blank paragraph, splits each non-blank paragraph on
whitespace runs (`split(/\s+/)`), and greedily packs words into lines,
pushing the current line whenever adding the next word would exceed
`maxWidth`.  The external `p.textWidth` is modelled by an arbitrary
`width : String → ℚ`. -/

def splitNlAux (cur : List Char) : List Char → List String
  | [] => [String.mk cur.reverse]
  | c :: cs =>
      if c = '\n' then String.mk cur.reverse :: splitNlAux [] cs
      else splitNlAux (c :: cur) cs

/-- JavaScript `str.split("\n")`. -/
def jsSplitNl (s : String) : List String := splitNlAux [] s.data

def wsTokensAux (cur : List Char) : List Char → List String
  | [] => if cur.isEmpty then [] else [String.mk cur.reverse]
  | c :: cs =>
      if c.isWhitespace then
        (if cur.isEmpty then [] else [String.mk cur.reverse]) ++
          wsTokensAux [] cs
      else wsTokensAux (c :: cur) cs

/-- JavaScript `para.split(/\s+/)`: maximal whitespace runs separate
the tokens; a leading (resp. trailing) whitespace run contributes a
leading (trailing) empty string, and the empty string splits to
`[""]`. -/
def jsSplitWs (s : String) : List String :=
  if s.data.isEmpty then [""]
  else
    (if s.data.head?.any Char.isWhitespace then [""] else []) ++
    wsTokensAux [] s.data ++
    (if s.data.getLast?.any Char.isWhitespace then [""] else [])

/-- JavaScript `String.prototype.trim`. -/
def jsTrim (s : String) : String :=
  String.mk
    (((s.data.dropWhile Char.isWhitespace).reverse.dropWhile
      Char.isWhitespace).reverse)

/-- `const test = line ? line + " " + w : w`. -/
def testLine (line w : String) : String :=
  if line = "" then w else line ++ " " ++ w

/-- The inner word loop of `wrapLines`, including the trailing
`if (line) lines.push(line)`. -/
def wrapWords (width : String → ℚ) (maxW : ℚ) :
    List String → String → List String
  | [], line => if line = "" then [] else [line]
  | w :: ws, line =>
      if width (testLine line w) ≤ maxW then
        wrapWords width maxW ws (testLine line w)
      else
        (if line = "" then [] else [line]) ++ wrapWords width maxW ws w

/-- `wrapLines`: paragraphs are processed in order into one flat line
list. -/
def wrapLines (width : String → ℚ) (str : String) (maxW : ℚ) :
    List String :=
  (jsSplitNl str).flatMap fun para =>
    if jsTrim para = "" then [""]
    else wrapWords width maxW (jsSplitWs para) ""

/-- How the loop accumulates a chunk of words into one line:
`line` starts empty and each word is appended through `testLine`. -/
def jsJoin (ws : List String) : String := ws.foldl testLine ""

theorem jsJoin_append_single (pre : List String) (w : String) :
    jsJoin (pre ++ [w]) = testLine (jsJoin pre) w := by
  simp [jsJoin, List.foldl_append]

theorem jsJoin_single (w : String) : jsJoin [w] = w := by
  simp [jsJoin, testLine]

/-- The wrap loop only ever breaks between words: its output is the
chunk-wise `jsJoin` of a partition of the word list into consecutive
chunks (empty joins are not pushed). -/
theorem wrapWords_chunks (width : String → ℚ) (maxW : ℚ)
    (ws : List String) : ∀ pre : List String,
    ∃ chunks : List (List String),
      chunks.flatten = pre ++ ws ∧
      wrapWords width maxW ws (jsJoin pre) =
        (chunks.map jsJoin).filter (fun l => l ≠ "") := by
  induction ws with
  | nil =>
      intro pre
      refine ⟨[pre], by simp, ?_⟩
      show (if jsJoin pre = "" then [] else [jsJoin pre]) = _
      by_cases h : jsJoin pre = "" <;> simp [h]
  | cons w ws ih =>
      intro pre
      by_cases hw : width (testLine (jsJoin pre) w) ≤ maxW
      · obtain ⟨chunks, hjoin, hout⟩ := ih (pre ++ [w])
        refine ⟨chunks, by simpa using hjoin, ?_⟩
        simp only [wrapWords, if_pos hw]
        rw [← jsJoin_append_single]
        exact hout
      · obtain ⟨chunks, hjoin, hout⟩ := ih [w]
        refine ⟨pre :: chunks, by simp [hjoin], ?_⟩
        rw [jsJoin_single] at hout
        simp only [wrapWords, if_neg hw]
        rw [hout, List.map_cons, List.filter_cons]
        by_cases hp : jsJoin pre = "" <;> simp [hp]

/-- Every line the loop pushes was either accepted by the width test,
or is a single word copied verbatim on overflow, or is the initial
accumulator. -/
theorem wrapWords_width_bound (width : String → ℚ) (maxW : ℚ)
    (ws : List String) : ∀ line, ∀ l ∈ wrapWords width maxW ws line,
    width l ≤ maxW ∨ l ∈ ws ∨ l = line := by
  induction ws with
  | nil =>
      intro line l hl
      by_cases h : line = ""
      · simp [wrapWords, h] at hl
      · simp only [wrapWords, if_neg h, List.mem_singleton] at hl
        exact Or.inr (Or.inr hl)
  | cons w ws ih =>
      intro line l hl
      by_cases hw : width (testLine line w) ≤ maxW
      · simp only [wrapWords, if_pos hw] at hl
        rcases ih _ l hl with h | h | h
        · exact Or.inl h
        · exact Or.inr (Or.inl (List.mem_cons_of_mem _ h))
        · rw [h]
          exact Or.inl hw
      · simp only [wrapWords, if_neg hw] at hl
        rcases List.mem_append.mp hl with h | h
        · by_cases hline : line = ""
          · rw [if_pos hline] at h
            exact absurd h (List.not_mem_nil l)
          · rw [if_neg hline, List.mem_singleton] at h
            exact Or.inr (Or.inr h)
        · rcases ih _ l h with h' | h' | h'
          · exact Or.inl h'
          · exact Or.inr (Or.inl (List.mem_cons_of_mem _ h'))
          · rw [h']
            exact Or.inr (Or.inl (List.mem_cons_self w ws))

/-- C10 counterexample: with the character-count width metric and
`maxWidth = 3`, the single six-character word `"abcdef"` is emitted as
a line of measured width `6 > 3`: the wrapped output is not bounded by
the maximum line width. -/
def lenWidth (s : String) : ℚ := s.length

theorem wrapLines_overlong_word :
    wrapLines lenWidth "abcdef" 3 = ["abcdef"] ∧
    ¬ lenWidth "abcdef" ≤ 3 := by
  constructor
  · rfl
  · decide

/-- C10 amended: every output line either fits the maximum width or is
a single unbreakable input word (whose own measured width exceeds the
maximum); lines never break inside a word — each non-blank paragraph's
output is the space-join of a partition of its whitespace-split word
list into consecutive chunks — and a blank paragraph contributes an
empty output line. -/
theorem wrapLines_spec (width : String → ℚ) (str : String) (maxW : ℚ) :
    (∀ l ∈ wrapLines width str maxW,
      l = "" ∨ width l ≤ maxW ∨
        ∃ para ∈ jsSplitNl str, l ∈ jsSplitWs para) ∧
    (∀ para ∈ jsSplitNl str, jsTrim para = "" →
      "" ∈ wrapLines width str maxW) ∧
    (∀ para ∈ jsSplitNl str, jsTrim para ≠ "" →
      ∃ chunks : List (List String),
        chunks.flatten = jsSplitWs para ∧
        wrapWords width maxW (jsSplitWs para) "" =
          (chunks.map jsJoin).filter (fun l => l ≠ "")) := by
  refine ⟨?_, ?_, ?_⟩
  · intro l hl
    rw [wrapLines, List.mem_flatMap] at hl
    obtain ⟨para, hpara, hmem⟩ := hl
    by_cases hblank : jsTrim para = ""
    · rw [if_pos hblank, List.mem_singleton] at hmem
      exact Or.inl hmem
    · rw [if_neg hblank] at hmem
      rcases wrapWords_width_bound width maxW (jsSplitWs para) "" l hmem
        with h | h | h
      · exact Or.inr (Or.inl h)
      · exact Or.inr (Or.inr ⟨para, hpara, h⟩)
      · exact Or.inl h
  · intro para hpara hblank
    rw [wrapLines, List.mem_flatMap]
    exact ⟨para, hpara, by rw [if_pos hblank]; exact List.mem_singleton.mpr rfl⟩
  · intro para _ _
    have h := wrapWords_chunks width maxW (jsSplitWs para) []
    obtain ⟨chunks, hjoin, hout⟩ := h
    exact ⟨chunks, by simpa using hjoin, hout⟩

/-- Witness for C10's amended theorem on `"hello world`¶¶`bye"` with the
character-count metric and `maxWidth = 5`: the blank middle paragraph
yields an empty output line. -/
theorem wrapLines_spec_witness :
    "" ∈ wrapLines lenWidth "hello world\n\nbye" 5 :=
  (wrapLines_spec lenWidth "hello world\n\nbye" 5).2.1 ""
    (by decide) (by decide)

end Memorial
